import Mathlib

/-!
Verification development for the Solana Conditional Tokens Framework repository.

The TypeScript SDK helpers (`sdk/client.ts`, class `PartitionHelper` and
`ConditionalTokensClient.verifyCTFInvariant`) are embedded with JavaScript
number semantics: the bitwise operators `<<`, `&`, `|` operate on 32-bit
integers (`ToInt32`/`ToUint32` coercions), while comparisons such as `>` use
the exact numeric values.  Index sets passed by the SDK are unsigned bitmasks,
so they are modelled as natural numbers; the 32-bit truncation performed by
each bitwise operator is kept explicit.

The on-chain program excerpts in the implementation guide
(`validate_partition`, `report_payout`, `redeem_positions`) are embedded from
their Rust text; account-effect details elided in the excerpts
(`token::burn(/* ... */)`, `token::transfer(/* ... */)`) and the undefined
helper `calculate_payout_numerator` are modelled from the specification.
The split/merge instruction bodies do not appear in the available sources at
all, so the ledger engine used for the conservation and inverse-law claims is
modelled from the specification (sections 4.3 and 4.4).
-/

namespace CTF

/-! ### JavaScript 32-bit machine arithmetic -/

/-- Low 32 bits of a natural number: the `ToUint32` coercion JavaScript
applies to every bitwise operand. -/
def toUint32 (x : Nat) : Nat := x % 4294967296

/-- Signed value of a 32-bit word: the result of JavaScript `ToInt32`,
reinterpreting the low 32 bits as a two's-complement integer. -/
def int32val (u : Nat) : Int :=
  if u < 2147483648 then (u : Int) else (u : Int) - 4294967296

/-! ### PartitionHelper (sdk/client.ts) -/

/-- Embedding of `PartitionHelper.binaryPartition`: returns `[0b01, 0b10]`. -/
def binaryPartition : List Nat := [1, 2]

/-- Embedding of `PartitionHelper.fullPartition`: returns
`[2^0, 2^1, ..., 2^(n-1)]`. -/
def fullPartition (outcomeCount : Nat) : List Nat :=
  (List.range outcomeCount).map (fun i => 1 <<< i)

/-- The JavaScript expression `(1 << outcomeCount) - 1` from
`PartitionHelper.validatePartition`: the shift count is reduced mod 32 and
the shifted value is a signed 32-bit integer, then 1 is subtracted as an
exact number. -/
def fullIndexSetJs (outcomeCount : Nat) : Int :=
  int32val (toUint32 (1 <<< (outcomeCount % 32))) - 1

/-- The `for (const indexSet of partition)` loop of
`PartitionHelper.validatePartition`: rejects on overlap with the running
union (`(union & indexSet) !== 0`, a 32-bit bitwise test), rejects when
`indexSet > fullIndexSet` (exact numeric comparison), otherwise accumulates
`union |= indexSet`; after the loop accepts iff `union === fullIndexSet`.
The running union is kept as its unsigned 32-bit word. -/
def validateLoop (full : Int) : List Nat → Nat → Bool
  | [], union => int32val union == full
  | indexSet :: rest, union =>
    if toUint32 union &&& toUint32 indexSet ≠ 0 then false
    else if (indexSet : Int) > full then false
    else validateLoop full rest (toUint32 union ||| toUint32 indexSet)

/-- Embedding of `PartitionHelper.validatePartition` (sdk/client.ts):
rejects partitions of length 0 or 1 as trivial, then runs the overlap /
range / union loop and accepts iff the union equals the full index set. -/
def validatePartition (partition : List Nat) (outcomeCount : Nat) : Bool :=
  if partition.length == 0 || partition.length == 1 then false
  else validateLoop (fullIndexSetJs outcomeCount) partition 0

/-- Embedding of `PartitionHelper.outcomeToIndexSet`: `1 << outcomeIndex`. -/
def outcomeToIndexSet (outcomeIndex : Nat) : Nat := 1 <<< outcomeIndex

/-- The `while (remaining > 0)` loop of `PartitionHelper.indexSetToOutcomes`:
emits the current bit position when `remaining & 1` is set, then shifts
`remaining` right by one and increments the bit counter. -/
def indexSetToOutcomesGo (remaining bit : Nat) : List Nat :=
  if remaining = 0 then []
  else (if remaining &&& 1 ≠ 0 then [bit] else []) ++
       indexSetToOutcomesGo (remaining >>> 1) (bit + 1)
termination_by remaining
decreasing_by
  show remaining / 2 < remaining
  exact Nat.div_lt_self (Nat.pos_of_ne_zero (by assumption)) (by omega)

/-- Embedding of `PartitionHelper.indexSetToOutcomes` (sdk/client.ts). -/
def indexSetToOutcomes (indexSet : Nat) : List Nat :=
  indexSetToOutcomesGo indexSet 0

/-- Embedding of `PartitionHelper.outcomesToIndexSet`:
`outcomeIndices.reduce((acc, idx) => acc | (1 << idx), 0)`. -/
def outcomesToIndexSet (outcomeIndices : List Nat) : Nat :=
  outcomeIndices.foldl (fun acc idx => acc ||| (1 <<< idx)) 0

/-- The comparison performed by `ConditionalTokensClient.verifyCTFInvariant`
(sdk/client.ts): after summing the outcome mint supplies it checks
`totalOutcomeSupply === vaultBalance * outcomeMints.length`. -/
def verifyCTFInvariantCheck (vaultBalance totalOutcomeSupply numOutcomes : Nat) : Bool :=
  totalOutcomeSupply == vaultBalance * numOutcomes

/-! ### Abstract partition predicates (specification vocabulary) -/

/-- Bitwise union of a list of index sets. -/
def listOr (l : List Nat) : Nat := l.foldr (· ||| ·) 0

/-- Running union of index sets starting from `u`, mirroring the loop's
`union |= indexSet` accumulation. -/
def unionFrom (u : Nat) : List Nat → Nat
  | [] => u
  | s :: rest => unionFrom (u ||| s) rest

/-- The per-set checks of the validation loop, over exact naturals: each set
must be disjoint from the running union and at most the full mask. -/
def checksFrom (full : Nat) (u : Nat) : List Nat → Bool
  | [] => true
  | s :: rest =>
    if u &&& s = 0 ∧ s ≤ full then checksFrom full (u ||| s) rest else false

/-! ### Payout calculation (redeem_positions excerpt, implementation guide) -/

/-- Rust `u128::checked_mul` on values already known to fit `u128`. -/
def checkedMulU128 (a b : Nat) : Option Nat :=
  if a * b < 2 ^ 128 then some (a * b) else none

/-- Rust `u128::checked_div`: `none` exactly when the divisor is zero. -/
def checkedDivU128 (a b : Nat) : Option Nat :=
  if b = 0 then none else some (a / b)

/-- Modelled from the spec: the helper `calculate_payout_numerator` is called
by `redeem_positions` but its body appears nowhere in the sources; §4.5 gives
`numerator = Σ payout_numerators[i] for each bit i set in index_set`.
This walks the numerator list with its index. -/
def calculatePayoutNumeratorGo : List Nat → Nat → Nat → Nat
  | [], _, _ => 0
  | x :: rest, indexSet, i =>
    (if indexSet.testBit i then x else 0) +
      calculatePayoutNumeratorGo rest indexSet (i + 1)

/-- Modelled from the spec: sum of the payout numerators selected by the
bits of `indexSet` (see `calculatePayoutNumeratorGo`). -/
def calculate_payout_numerator (payout_numerators : List Nat) (indexSet : Nat) : Nat :=
  calculatePayoutNumeratorGo payout_numerators indexSet 0

/-- Rust `condition.payout_numerators.iter().sum()` from `redeem_positions`. -/
def payoutDenominator (payout_numerators : List Nat) : Nat := payout_numerators.sum

/-- The payout arithmetic of `redeem_positions` (implementation guide):
`(amount as u128).checked_mul(payout_numerator as u128)` then
`.checked_div(payout_denominator as u128)`, with the final `as u64` cast
taking the low 64 bits.  The division is `none` exactly when the
denominator is zero (the excerpt's `.unwrap()` would panic there). -/
def payoutFor (payout_numerators : List Nat) (indexSet amount : Nat) : Option Nat :=
  (checkedMulU128 amount (calculate_payout_numerator payout_numerators indexSet)).bind
    (fun p => (checkedDivU128 p (payoutDenominator payout_numerators)).map
      (fun q => q % 2 ^ 64))

/-! ### Conditions and resolution -/

/-- The `Condition` account (README / implementation guide): oracle identity,
outcome slot count, resolution flag and payout vector.  Pubkeys are modelled
as bare naturals. -/
structure Condition where
  oracle : Nat
  outcome_slot_count : Nat
  is_resolved : Bool
  payout_numerators : List Nat
deriving DecidableEq

/-- Typed failures of the core operations (§7 of the specification plus the
instruction errors named in the sources). -/
inductive CtfError where
  | UnauthorizedOracle
  | AlreadyResolved
  | InvalidPayoutVector
  | InvalidPartition
  | InvalidAmount
  | InsufficientFunds
  | InsufficientPosition
  | InsufficientVault
  | ConditionNotResolved
  | DivisionByZero
deriving DecidableEq

/-- Embedding of `report_payout` exactly as the implementation guide's Rust
excerpt gives it (part_000 lines 727-741): it requires
`oracle.key() == condition.oracle` and then unconditionally stores the
supplied numerators and sets `is_resolved`.  The excerpt contains no
`AlreadyResolved` and no payout-vector validation. -/
def report_payout (caller : Nat) (condition : Condition) (payout_numerators : List Nat) :
    Except CtfError Condition :=
  if caller ≠ condition.oracle then .error .UnauthorizedOracle
  else .ok { condition with payout_numerators := payout_numerators, is_resolved := true }

/-! ### Redeem (redeem_positions excerpt, implementation guide) -/

/-- Ledger events emitted while redeeming: claim burns and the final
collateral transfer. -/
inductive LedgerEvent where
  | burn (indexSet amount : Nat)
  | transfer (amount : Nat)
deriving DecidableEq

/-- Recogniser for burn events. -/
def isBurn : LedgerEvent → Bool
  | .burn _ _ => true
  | .transfer _ => false

/-- Account state touched by redemption: the caller's claim balances per
index set, the vault balance, and the caller's collateral balance. -/
structure RedeemState where
  userPositions : Nat → Nat
  vault : Nat
  userCollateral : Nat

/-- Modelled from the spec: effect of the `token::burn(/* ... */)` call whose
arguments the excerpt elides — remove `amount` claim units of the given
index set from the caller. -/
def burnPosition (st : RedeemState) (indexSet amount : Nat) : RedeemState :=
  { st with userPositions :=
      fun s => if s = indexSet then st.userPositions s - amount else st.userPositions s }

/-- The `for (i, &index_set) in index_sets.iter().enumerate()` loop of
`redeem_positions`: per index set it computes the payout, accumulates
`total_payout`, then burns `amount` claim units (failing with
`InsufficientPosition` when the caller's position cannot cover the burn).
On failure the state reached so far and the events emitted so far are
returned alongside the error. -/
def redeemLoop (payout_numerators : List Nat) (amount : Nat) :
    List Nat → RedeemState → Nat → List LedgerEvent →
      Option CtfError × RedeemState × Nat × List LedgerEvent
  | [], st, total, trace => (none, st, total, trace)
  | indexSet :: rest, st, total, trace =>
    match payoutFor payout_numerators indexSet amount with
    | none => (some .DivisionByZero, st, total, trace)
    | some payout =>
      if st.userPositions indexSet < amount then
        (some .InsufficientPosition, st, total + payout, trace)
      else
        redeemLoop payout_numerators amount rest (burnPosition st indexSet amount)
          (total + payout) (trace ++ [.burn indexSet amount])

/-- Tail of `redeem_positions`: after the burn loop, either propagate its
error, or — when the vault covers the accumulated `total_payout` — perform
the single final `token::transfer` of the total to the caller. -/
def redeemFinish :
    Option CtfError × RedeemState × Nat × List LedgerEvent →
      Option CtfError × RedeemState × List LedgerEvent
  | (some e, st1, _, trace) => (some e, st1, trace)
  | (none, st1, total, trace) =>
    if st1.vault < total then (some .InsufficientVault, st1, trace)
    else (none,
          { st1 with vault := st1.vault - total,
                     userCollateral := st1.userCollateral + total },
          trace ++ [.transfer total])

/-- Embedding of `redeem_positions` (implementation guide, part_000 lines
766-800): requires `condition.is_resolved`, runs the burn loop, and only
after the whole loop transfers the accumulated `total_payout` from the vault
to the caller (see `redeemFinish`). -/
def redeem_positions (condition : Condition) (st : RedeemState)
    (index_sets : List Nat) (amount : Nat) :
    Option CtfError × RedeemState × List LedgerEvent :=
  if condition.is_resolved = false then (some .ConditionNotResolved, st, [])
  else redeemFinish (redeemLoop condition.payout_numerators amount index_sets st 0 [])

/-! ### Ledger engine for split and merge

The bodies of the on-chain `split_position` and `merge_positions`
instructions appear nowhere in the available sources (only the client that
submits them and the tests that exercise them), so the engine below is
modelled from the specification. -/

/-- Number of index sets in `partition` covering outcome index `i`. -/
def countCover (partition : List Nat) (i : Nat) : Nat :=
  partition.countP (fun s => s.testBit i)

/-- Modelled from the spec: §4.1's partition validator for the on-chain
engine — full mask `2^n - 1` parametric in the slot count, rejecting empty
sets, overlaps and out-of-range sets, accepting iff the union is full and
the partition has at least two sets. -/
def validateSpecLoop (full : Nat) : Nat → List Nat → Bool
  | u, [] => u == full
  | u, s :: rest =>
    if s = 0 then false
    else if u &&& s ≠ 0 then false
    else if s > full then false
    else validateSpecLoop full (u ||| s) rest

/-- Modelled from the spec: §4.1 partition validation, see
`validateSpecLoop`. -/
def validate (partition : List Nat) (outcome_slot_count : Nat) : Bool :=
  decide (2 ≤ partition.length) && validateSpecLoop (2 ^ outcome_slot_count - 1) 0 partition

/-- Ledger state of one condition with one collateral asset: the payer's
collateral balance, the vault balance, the per-outcome-index claim supply,
and the caller's claim units per index set. -/
structure Ledger where
  payerCollateral : Nat
  vault : Nat
  supply : Nat → Nat
  callerClaims : Nat → Nat

/-- Modelled from the spec: §4.3 Split — requires a positive amount and a
valid partition, debits the payer, credits the vault, and for every index
set in the partition increases the supply of every covered outcome index by
`amount` while issuing `amount` claim units per index set. -/
def split (L : Ledger) (outcome_slot_count amount : Nat) (partition : List Nat) :
    Except CtfError Ledger :=
  if amount = 0 then .error .InvalidAmount
  else if validate partition outcome_slot_count then
    if L.payerCollateral < amount then .error .InsufficientFunds
    else .ok
      { payerCollateral := L.payerCollateral - amount,
        vault := L.vault + amount,
        supply := fun i => L.supply i + amount * countCover partition i,
        callerClaims := fun s => L.callerClaims s + amount * partition.count s }
  else .error .InvalidPartition

/-- Modelled from the spec: §4.4 Merge — the exact inverse of Split: burns
`amount` claim units per index set and `amount` supply per covered outcome,
debits the vault and credits the payer, failing with `InsufficientPosition`
when a burn cannot be covered and `InsufficientVault` when the vault is
short. -/
def merge (L : Ledger) (outcome_slot_count amount : Nat) (partition : List Nat) :
    Except CtfError Ledger :=
  if validate partition outcome_slot_count then
    if partition.any (fun s => L.callerClaims s < amount) then
      .error .InsufficientPosition
    else if (List.range outcome_slot_count).any
        (fun i => L.supply i < amount * countCover partition i) then
      .error .InsufficientPosition
    else if L.vault < amount then .error .InsufficientVault
    else .ok
      { payerCollateral := L.payerCollateral + amount,
        vault := L.vault - amount,
        supply := fun i => L.supply i - amount * countCover partition i,
        callerClaims := fun s => L.callerClaims s - amount * partition.count s }
  else .error .InvalidPartition

/-- States of one condition's ledger reachable from an empty vault using
only splits and merges with the full single-bit partition
(`fullPartition n`, matching `PartitionHelper.fullPartition`). -/
inductive Reachable (n : Nat) : Ledger → Prop
  | init (collat : Nat) :
      Reachable n ⟨collat, 0, fun _ => 0, fun _ => 0⟩
  | splitStep {L L2 : Ledger} (amount : Nat) :
      Reachable n L → split L n amount (fullPartition n) = .ok L2 → Reachable n L2
  | mergeStep {L L2 : Ledger} (amount : Nat) :
      Reachable n L → merge L n amount (fullPartition n) = .ok L2 → Reachable n L2

/-- Sum of the outcome-position supplies over all outcome indices. -/
def sumSupply (L : Ledger) (n : Nat) : Nat := ((List.range n).map L.supply).sum

/-- Initial ledger used in concrete runs: the payer holds 100 units of
collateral, nothing has been split. -/
def ledger0 : Ledger := ⟨100, 0, fun _ => 0, fun _ => 0⟩

/-- The ledger reached from `ledger0` by splitting 100 units with the full
single-bit partition over 2 outcome slots (field expressions exactly as
`split` produces them). -/
def c1SplitState : Ledger :=
  { payerCollateral := 100 - 100,
    vault := 0 + 100,
    supply := fun i => 0 + 100 * countCover (fullPartition 2) i,
    callerClaims := fun s => 0 + 100 * (fullPartition 2).count s }

/-- A resolved binary condition (oracle 7, payouts `[0, 1]`). -/
def resolvedCond : Condition := ⟨7, 2, true, [0, 1]⟩

/-- An unresolved binary condition (oracle 7). -/
def unresolvedCond : Condition := ⟨7, 2, false, []⟩

/-- A redeem state holding no claim units at all, used to exhibit a failing
redemption. -/
def emptyRedeemState : RedeemState := ⟨fun _ => 0, 100, 0⟩

/-! ### Bitwise helper lemmas -/

theorem or_absorb_and (a b : Nat) : a &&& (a ||| b) = a := by
  apply Nat.eq_of_testBit_eq
  intro i
  simp only [Nat.testBit_and, Nat.testBit_or]
  cases a.testBit i <;> simp

theorem le_or_left (a b : Nat) : a ≤ a ||| b := by
  calc a = a &&& (a ||| b) := (or_absorb_and a b).symm
    _ ≤ a ||| b := Nat.and_le_right

theorem le_or_right (a b : Nat) : b ≤ a ||| b := by
  rw [Nat.or_comm]
  exact le_or_left b a

theorem or_eq_zero_iff (a b : Nat) : a ||| b = 0 ↔ a = 0 ∧ b = 0 := by
  constructor
  · intro h
    exact ⟨Nat.le_zero.mp (h ▸ le_or_left a b), Nat.le_zero.mp (h ▸ le_or_right a b)⟩
  · rintro ⟨rfl, rfl⟩
    rfl

/-! ### Characterization of the TypeScript partition validator -/

theorem fullIndexSetJs_eq (n : Nat) (h30 : n ≤ 30) :
    fullIndexSetJs n = ((2 ^ n - 1 : Nat) : Int) := by
  have hlt : (2 : Nat) ^ n ≤ 2 ^ 30 := Nat.pow_le_pow_right (by omega) h30
  have h30lit : (2 : Nat) ^ 30 = 1073741824 := by norm_num
  have hmod : n % 32 = n := Nat.mod_eq_of_lt (by omega)
  have hone : (1 : Nat) ≤ 2 ^ n := Nat.one_le_two_pow
  rw [fullIndexSetJs, hmod, Nat.shiftLeft_eq, one_mul, toUint32,
    Nat.mod_eq_of_lt (by omega), int32val, if_pos (by omega)]
  push_cast [hone]
  ring

theorem validateLoop_iff (F : Nat) (hF : F < 2 ^ 31) :
    ∀ (l : List Nat) (u : Nat), u < 2 ^ 31 →
      (validateLoop (F : Int) l u = true ↔
        (checksFrom F u l = true ∧ unionFrom u l = F)) := by
  have h31 : (2 : Nat) ^ 31 = 2147483648 := by norm_num
  intro l
  induction l with
  | nil =>
    intro u hu
    simp only [validateLoop, checksFrom, unionFrom, int32val, if_pos (by omega : u < 2147483648),
      beq_iff_eq, Int.natCast_inj, true_and]
  | cons s rest ih =>
    intro u hu
    have huu : toUint32 u = u := Nat.mod_eq_of_lt (by omega)
    by_cases hs : s ≤ F
    · have hss : toUint32 s = s := Nat.mod_eq_of_lt (by omega)
      have hile : ¬ ((s : Int) > (F : Int)) := by exact_mod_cast Nat.not_lt.mpr hs
      by_cases hov : u &&& s = 0
      · have hrec : u ||| s < 2 ^ 31 := Nat.or_lt_two_pow hu (by omega)
        rw [validateLoop, huu, hss, if_neg (by omega), if_neg hile]
        rw [ih (u ||| s) hrec]
        simp only [checksFrom, if_pos (And.intro hov hs), unionFrom]
      · have hcf : ¬(u &&& s = 0 ∧ s ≤ F) := fun hc => hov hc.1
        rw [validateLoop, huu, hss, if_pos (by omega)]
        simp only [checksFrom, if_neg hcf]
        simp
    · have hgt : (s : Int) > (F : Int) := by exact_mod_cast Nat.not_le.mp hs
      have hfalse : validateLoop (F : Int) (s :: rest) u = false := by
        rw [validateLoop, huu]
        by_cases hov : u &&& toUint32 s ≠ 0
        · rw [if_pos hov]
        · rw [if_neg hov, if_pos hgt]
      have hcf : ¬(u &&& s = 0 ∧ s ≤ F) := fun hc => hs hc.2
      rw [hfalse]
      simp only [checksFrom, if_neg hcf]
      simp

theorem checksFrom_iff (F : Nat) (l : List Nat) :
    ∀ u : Nat, checksFrom F u l = true ↔
      ((∀ s ∈ l, u &&& s = 0) ∧ (∀ s ∈ l, s ≤ F) ∧
        l.Pairwise (fun a b => a &&& b = 0)) := by
  induction l with
  | nil => simp [checksFrom]
  | cons s rest ih =>
    intro u
    rw [checksFrom]
    by_cases h : u &&& s = 0 ∧ s ≤ F
    · rw [if_pos h, ih (u ||| s)]
      simp only [List.mem_cons, List.pairwise_cons]
      constructor
      · rintro ⟨hall, hle, hpw⟩
        refine ⟨?_, ?_, ?_, hpw⟩
        · rintro t (rfl | ht)
          · exact h.1
          · have := hall t ht
            rw [Nat.and_distrib_right, or_eq_zero_iff] at this
            exact this.1
        · rintro t (rfl | ht)
          · exact h.2
          · exact hle t ht
        · intro t ht
          have := hall t ht
          rw [Nat.and_distrib_right, or_eq_zero_iff] at this
          exact this.2
      · rintro ⟨hall, hle, hpw1, hpw2⟩
        refine ⟨?_, ?_, hpw2⟩
        · intro t ht
          rw [Nat.and_distrib_right, or_eq_zero_iff]
          exact ⟨hall t (Or.inr ht), hpw1 t ht⟩
        · intro t ht
          exact hle t (Or.inr ht)
    · rw [if_neg h]
      simp only [List.mem_cons, Bool.false_eq_true, false_iff]
      intro hcon
      exact h ⟨hcon.1 s (Or.inl rfl), hcon.2.1 s (Or.inl rfl)⟩

theorem unionFrom_eq (l : List Nat) : ∀ u, unionFrom u l = u ||| listOr l := by
  induction l with
  | nil => intro u; simp [unionFrom, listOr]
  | cons s rest ih =>
    intro u
    rw [unionFrom, ih (u ||| s)]
    show u ||| s ||| listOr rest = u ||| listOr (s :: rest)
    rw [Nat.or_assoc]
    rfl

theorem le_listOr (l : List Nat) : ∀ s ∈ l, s ≤ listOr l := by
  induction l with
  | nil => simp
  | cons a rest ih =>
    intro s hs
    rcases List.mem_cons.mp hs with rfl | hmem
    · exact le_or_left s (listOr rest)
    · exact le_trans (ih s hmem) (le_or_right a (listOr rest))

theorem validatePartition_eq_checks (p : List Nat) (n : Nat) (h30 : n ≤ 30) :
    validatePartition p n = true ↔
      (checksFrom (2 ^ n - 1) 0 p = true ∧ unionFrom 0 p = 2 ^ n - 1 ∧
        2 ≤ p.length) := by
  have hF : 2 ^ n - 1 < 2 ^ 31 := by
    have h1 : (2 : Nat) ^ n ≤ 2 ^ 30 := Nat.pow_le_pow_right (by omega) h30
    have h2 : (2 : Nat) ^ 30 < 2 ^ 31 := by norm_num
    omega
  by_cases hlen : 2 ≤ p.length
  · have hcond : (p.length == 0 || p.length == 1) = false := by
      simp only [Bool.or_eq_false_iff, beq_eq_false_iff_ne]
      omega
    rw [validatePartition, hcond, if_neg (by simp), fullIndexSetJs_eq n h30,
      validateLoop_iff (2 ^ n - 1) hF p 0 (by positivity)]
    tauto
  · have h01 : p.length = 0 ∨ p.length = 1 := by omega
    have hcond : (p.length == 0 || p.length == 1) = true := by
      rcases h01 with h | h <;> simp [h]
    rw [validatePartition, hcond]
    simp only [if_pos rfl, Bool.false_eq_true, false_iff]
    tauto

theorem validatePartition_char (p : List Nat) (n : Nat) (h30 : n ≤ 30) :
    validatePartition p n = true ↔
      (2 ≤ p.length ∧ p.Pairwise (fun a b => a &&& b = 0) ∧
        listOr p = 2 ^ n - 1) := by
  rw [validatePartition_eq_checks p n h30, checksFrom_iff, unionFrom_eq,
    Nat.zero_or]
  constructor
  · rintro ⟨⟨_, _, hpw⟩, hun, hlen⟩
    exact ⟨hlen, hpw, hun⟩
  · rintro ⟨hlen, hpw, hun⟩
    refine ⟨⟨fun s _ => Nat.zero_and s, fun s hs => ?_, hpw⟩, hun, hlen⟩
    rw [← hun]
    exact le_listOr p s hs

/-! ### Index-set conversions -/

theorem mem_indexSetToOutcomesGo :
    ∀ (s b i : Nat), i ∈ indexSetToOutcomesGo s b ↔
      ∃ j, s.testBit j = true ∧ i = b + j := by
  intro s
  induction s using Nat.strong_induction_on with
  | _ s ih =>
    intro b i
    by_cases hs : s = 0
    · subst hs
      rw [indexSetToOutcomesGo]
      simp [Nat.zero_testBit]
    · have hd : s >>> 1 = s / 2 := rfl
      have hlt : s / 2 < s := Nat.div_lt_self (Nat.pos_of_ne_zero hs) (by omega)
      rw [indexSetToOutcomesGo, if_neg hs, List.mem_append, hd,
        ih (s / 2) hlt (b + 1) i]
      have hbit0 : s &&& 1 = s % 2 := Nat.and_one_is_mod s
      constructor
      · rintro (hhead | ⟨j, hj, rfl⟩)
        · by_cases hodd : s &&& 1 ≠ 0
          · rw [if_pos hodd, List.mem_singleton] at hhead
            refine ⟨0, ?_, by omega⟩
            rw [Nat.testBit_zero]
            simp only [decide_eq_true_eq]
            omega
          · rw [if_neg hodd] at hhead
            exact absurd hhead (List.not_mem_nil i)
        · refine ⟨j + 1, ?_, by omega⟩
          rw [Nat.testBit_add_one]
          exact hj
      · rintro ⟨j, hj, rfl⟩
        cases j with
        | zero =>
          left
          rw [Nat.testBit_zero, decide_eq_true_eq] at hj
          rw [if_pos (by omega), List.mem_singleton]
          omega
        | succ j =>
          right
          rw [Nat.testBit_add_one] at hj
          exact ⟨j, hj, by omega⟩

theorem sorted_indexSetToOutcomesGo :
    ∀ (s b : Nat), List.Sorted (· < ·) (indexSetToOutcomesGo s b) := by
  intro s
  induction s using Nat.strong_induction_on with
  | _ s ih =>
    intro b
    by_cases hs : s = 0
    · subst hs
      rw [indexSetToOutcomesGo]
      simp
    · have hd : s >>> 1 = s / 2 := rfl
      have hlt : s / 2 < s := Nat.div_lt_self (Nat.pos_of_ne_zero hs) (by omega)
      have htail : List.Sorted (· < ·) (indexSetToOutcomesGo (s / 2) (b + 1)) :=
        ih (s / 2) hlt (b + 1)
      have hmem : ∀ x ∈ indexSetToOutcomesGo (s / 2) (b + 1), b < x := by
        intro x hx
        obtain ⟨j, _, rfl⟩ := (mem_indexSetToOutcomesGo (s / 2) (b + 1) x).mp hx
        omega
      rw [indexSetToOutcomesGo, if_neg hs, hd]
      by_cases hodd : s &&& 1 ≠ 0
      · rw [if_pos hodd, List.singleton_append, List.sorted_cons]
        exact ⟨hmem, htail⟩
      · rw [if_neg hodd, List.nil_append]
        exact htail

theorem mem_indexSetToOutcomes (x i : Nat) :
    i ∈ indexSetToOutcomes x ↔ x.testBit i = true := by
  rw [indexSetToOutcomes, mem_indexSetToOutcomesGo]
  constructor
  · rintro ⟨j, hj, rfl⟩
    simpa using hj
  · intro h
    exact ⟨i, h, by omega⟩

theorem testBit_outcomesToIndexSet_foldl :
    ∀ (l : List Nat) (acc i : Nat),
      ((l.foldl (fun a idx => a ||| (1 <<< idx)) acc).testBit i = true ↔
        (acc.testBit i = true ∨ i ∈ l)) := by
  intro l
  induction l with
  | nil =>
    intro acc i
    simp [List.foldl]
  | cons idx rest ih =>
    intro acc i
    rw [List.foldl_cons, ih (acc ||| (1 <<< idx)) i, Nat.testBit_or,
      Nat.shiftLeft_eq, one_mul, Nat.testBit_two_pow]
    simp only [Bool.or_eq_true, decide_eq_true_eq, List.mem_cons]
    constructor
    · rintro ((h | h) | h)
      · exact Or.inl h
      · exact Or.inr (Or.inl h.symm)
      · exact Or.inr (Or.inr h)
    · rintro (h | h | h)
      · exact Or.inl (Or.inl h)
      · exact Or.inl (Or.inr h.symm)
      · exact Or.inr h

theorem testBit_outcomesToIndexSet (l : List Nat) (i : Nat) :
    (outcomesToIndexSet l).testBit i = true ↔ i ∈ l := by
  rw [outcomesToIndexSet, testBit_outcomesToIndexSet_foldl]
  simp [Nat.zero_testBit]

theorem outcomesToIndexSet_indexSetToOutcomes (s : Nat) :
    outcomesToIndexSet (indexSetToOutcomes s) = s := by
  apply Nat.eq_of_testBit_eq
  intro i
  rw [Bool.eq_iff_iff, testBit_outcomesToIndexSet, mem_indexSetToOutcomes]

/-! ### Payout arithmetic lemmas -/

theorem calculatePayoutNumeratorGo_le_sum :
    ∀ (l : List Nat) (s i : Nat), calculatePayoutNumeratorGo l s i ≤ l.sum := by
  intro l
  induction l with
  | nil => intro s i; simp [calculatePayoutNumeratorGo]
  | cons x rest ih =>
    intro s i
    rw [calculatePayoutNumeratorGo, List.sum_cons]
    have h1 : (if s.testBit i then x else 0) ≤ x := by
      split <;> omega
    exact Nat.add_le_add h1 (ih s (i + 1))

theorem calculate_payout_numerator_le (nums : List Nat) (s : Nat) :
    calculate_payout_numerator nums s ≤ nums.sum :=
  calculatePayoutNumeratorGo_le_sum nums s 0

theorem payoutFor_eq_floor (nums : List Nat) (s amount : Nat)
    (ham : amount < 2 ^ 64) (hsum : nums.sum < 2 ^ 64) (hden : nums.sum ≠ 0) :
    payoutFor nums s amount =
      some (amount * calculate_payout_numerator nums s / nums.sum) := by
  have hnum : calculate_payout_numerator nums s ≤ nums.sum :=
    calculate_payout_numerator_le nums s
  have hmul : amount * calculate_payout_numerator nums s < 2 ^ 128 := by
    have h1 : amount * calculate_payout_numerator nums s ≤ amount * nums.sum :=
      Nat.mul_le_mul_left amount hnum
    have h2 : amount * nums.sum < 2 ^ 64 * 2 ^ 64 :=
      mul_lt_mul'' ham hsum (Nat.zero_le _) (Nat.zero_le _)
    have h3 : (2 : Nat) ^ 64 * 2 ^ 64 = 2 ^ 128 := by norm_num
    omega
  have hq : amount * calculate_payout_numerator nums s / nums.sum ≤ amount := by
    calc amount * calculate_payout_numerator nums s / nums.sum
        ≤ amount * nums.sum / nums.sum :=
          Nat.div_le_div_right (Nat.mul_le_mul_left amount hnum)
      _ = amount := Nat.mul_div_cancel amount (Nat.pos_of_ne_zero hden)
  rw [payoutFor, checkedMulU128, if_pos hmul]
  show (checkedDivU128 (amount * calculate_payout_numerator nums s)
      (payoutDenominator nums)).map (fun q => q % 2 ^ 64) = _
  rw [checkedDivU128, payoutDenominator, if_neg hden]
  show some (amount * calculate_payout_numerator nums s / nums.sum % 2 ^ 64) = _
  rw [Nat.mod_eq_of_lt (by omega)]

/-! ### Ledger engine lemmas -/

theorem countCover_fullPartition (n : Nat) :
    ∀ i, countCover (fullPartition n) i = if i < n then 1 else 0 := by
  induction n with
  | zero => intro i; simp [fullPartition, countCover]
  | succ n ih =>
    intro i
    have hsplit : fullPartition (n + 1) = fullPartition n ++ [1 <<< n] := by
      rw [fullPartition, List.range_succ, List.map_append, fullPartition]
      rfl
    rw [countCover, hsplit, List.countP_append, ← countCover, ih i]
    have hone : (List.countP (fun s => s.testBit i) [1 <<< n]) =
        if i = n then 1 else 0 := by
      rw [List.countP_cons, List.countP_nil, Nat.shiftLeft_eq, one_mul,
        Nat.testBit_two_pow]
      rcases eq_or_ne i n with rfl | hne
      · simp
      · simp [Ne.symm hne, hne]
    rw [hone]
    rcases Nat.lt_trichotomy i n with h | rfl | h
    · simp [h, Nat.lt_succ_of_lt h, Nat.ne_of_lt h]
    · simp
    · have h1 : ¬ i < n := by omega
      have h2 : ¬ i < n + 1 := by omega
      have h3 : i ≠ n := by omega
      simp [h1, h2, h3]

theorem split_ok_elim {L L2 : Ledger} {n a : Nat} {P : List Nat}
    (h : split L n a P = .ok L2) :
    L2 = { payerCollateral := L.payerCollateral - a,
           vault := L.vault + a,
           supply := fun i => L.supply i + a * countCover P i,
           callerClaims := fun s => L.callerClaims s + a * P.count s } ∧
      a ≤ L.payerCollateral ∧ a ≠ 0 ∧ validate P n = true := by
  rw [split] at h
  by_cases h1 : a = 0
  · rw [if_pos h1] at h
    exact Except.noConfusion h
  rw [if_neg h1] at h
  by_cases h2 : validate P n = true
  · rw [if_pos h2] at h
    by_cases h3 : L.payerCollateral < a
    · rw [if_pos h3] at h
      exact Except.noConfusion h
    · rw [if_neg h3] at h
      exact ⟨(Except.ok.inj h).symm, by omega, h1, h2⟩
  · rw [if_neg h2] at h
    exact Except.noConfusion h

theorem merge_ok_elim {L L2 : Ledger} {n a : Nat} {P : List Nat}
    (h : merge L n a P = .ok L2) :
    L2 = { payerCollateral := L.payerCollateral + a,
           vault := L.vault - a,
           supply := fun i => L.supply i - a * countCover P i,
           callerClaims := fun s => L.callerClaims s - a * P.count s } ∧
      a ≤ L.vault := by
  rw [merge] at h
  by_cases h1 : validate P n = true
  · rw [if_pos h1] at h
    by_cases h2 : P.any (fun s => L.callerClaims s < a) = true
    · rw [if_pos h2] at h
      exact Except.noConfusion h
    rw [if_neg h2] at h
    by_cases h3 : (List.range n).any (fun i => L.supply i < a * countCover P i) = true
    · rw [if_pos h3] at h
      exact Except.noConfusion h
    rw [if_neg h3] at h
    by_cases h4 : L.vault < a
    · rw [if_pos h4] at h
      exact Except.noConfusion h
    · rw [if_neg h4] at h
      exact ⟨(Except.ok.inj h).symm, by omega⟩
  · rw [if_neg h1] at h
    exact Except.noConfusion h

theorem reachable_supply_eq_vault {n : Nat} :
    ∀ {L : Ledger}, Reachable n L → ∀ i, i < n → L.supply i = L.vault := by
  intro L h
  induction h with
  | init collat => intro i _; rfl
  | splitStep a hreach hsplit ih =>
    intro i hi
    obtain ⟨h2, _, _, _⟩ := split_ok_elim hsplit
    rw [h2]
    show _ + a * countCover (fullPartition n) i = _ + a
    rw [countCover_fullPartition n i, if_pos hi, Nat.mul_one, ih i hi]
  | mergeStep a hreach hmerge ih =>
    intro i hi
    obtain ⟨h2, _⟩ := merge_ok_elim hmerge
    rw [h2]
    show _ - a * countCover (fullPartition n) i = _ - a
    rw [countCover_fullPartition n i, if_pos hi, Nat.mul_one, ih i hi]

theorem sum_map_range_const (f : Nat → Nat) (c : Nat) :
    ∀ n, (∀ i, i < n → f i = c) → ((List.range n).map f).sum = c * n := by
  intro n
  induction n with
  | zero => intro _; simp
  | succ n ih =>
    intro h
    rw [List.range_succ, List.map_append, List.sum_append,
      ih (fun i hi => h i (by omega))]
    simp only [List.map_cons, List.map_nil, List.sum_cons, List.sum_nil]
    rw [h n (by omega)]
    ring

/-! ### Redeem loop lemmas -/

theorem redeemLoop_trace (nums : List Nat) (amount : Nat) :
    ∀ (sets : List Nat) (st : RedeemState) (total : Nat)
      (trace : List LedgerEvent),
      ∃ bs, (redeemLoop nums amount sets st total trace).2.2.2 = trace ++ bs ∧
        (∀ e ∈ bs, isBurn e = true) := by
  intro sets
  induction sets with
  | nil =>
    intro st total trace
    exact ⟨[], by simp [redeemLoop], by simp⟩
  | cons s rest ih =>
    intro st total trace
    rw [redeemLoop]
    split
    · exact ⟨[], by simp, by simp⟩
    next payout hp =>
      split
      next hpos =>
        exact ⟨[], by simp, by simp⟩
      next hpos =>
        obtain ⟨bs, hbs, hall⟩ := ih (burnPosition st s amount) (total + payout)
          (trace ++ [LedgerEvent.burn s amount])
        refine ⟨LedgerEvent.burn s amount :: bs, ?_, ?_⟩
        · rw [hbs, List.append_assoc]
          rfl
        · intro e he
          rcases List.mem_cons.mp he with rfl | he2
          · rfl
          · exact hall e he2

theorem redeemLoop_preserves (nums : List Nat) (amount : Nat) :
    ∀ (sets : List Nat) (st : RedeemState) (total : Nat)
      (trace : List LedgerEvent),
      (redeemLoop nums amount sets st total trace).2.1.vault = st.vault ∧
      (redeemLoop nums amount sets st total trace).2.1.userCollateral =
        st.userCollateral := by
  intro sets
  induction sets with
  | nil => intro st total trace; exact ⟨rfl, rfl⟩
  | cons s rest ih =>
    intro st total trace
    rw [redeemLoop]
    split
    · exact ⟨rfl, rfl⟩
    next payout hp =>
      split
      next hpos =>
        exact ⟨rfl, rfl⟩
      next hpos =>
        exact ih (burnPosition st s amount) (total + payout)
          (trace ++ [LedgerEvent.burn s amount])

/-! ### Claim theorems -/

/-- C2 counterexample: the claim says `validatePartition` returns `false` for
every partition containing a zero index set, but `[0b11, 0b00]` over 2 slots
is accepted — the validator has no `s == 0` check. -/
theorem c2_counterexample :
    validatePartition [3, 0] 2 = true ∧ (0 : Nat) ∈ [3, 0] := by
  decide

/-- C2 (amended): `validatePartition` performs no zero-index-set check; a
partition containing 0 is accepted exactly when its length is at least 2, its
entries are pairwise disjoint (a zero entry is disjoint from everything), and
their union is the full mask — for slot counts where the 32-bit mask is
computed correctly. -/
theorem c2_zero_sets_not_rejected (p : List Nat) (n : Nat) (h30 : n ≤ 30)
    (_hz : 0 ∈ p) :
    validatePartition p n = true ↔
      (2 ≤ p.length ∧ p.Pairwise (fun a b => a &&& b = 0) ∧
        listOr p = 2 ^ n - 1) :=
  validatePartition_char p n h30

/-- C2 witness: the amended claim applied to the accepted partition
`[0b11, 0b00]` over 2 slots. -/
theorem c2_witness :
    (2 : Nat) ≤ 30 ∧ (0 : Nat) ∈ [3, 0] ∧
      (validatePartition [3, 0] 2 = true ↔
        (2 ≤ ([3, 0] : List Nat).length ∧
          ([3, 0] : List Nat).Pairwise (fun a b => a &&& b = 0) ∧
          listOr [3, 0] = 2 ^ 2 - 1)) :=
  ⟨by omega, by decide, c2_zero_sets_not_rejected [3, 0] 2 (by omega) (by decide)⟩

/-- C3 counterexample: the claim says the validator is correct for every
slot count in [2, 256], but at 32 slots the JavaScript mask `(1 << 32) - 1`
wraps to 0 and the valid full single-bit partition is rejected; conversely
`[0b11]` over 2 slots is disjoint and covering yet rejected (trivial), so
"accepts exactly the disjoint covering partitions" also fails as stated. -/
theorem c3_counterexample :
    (validatePartition (fullPartition 32) 32 = false ∧
      2 ≤ (fullPartition 32).length ∧
      (fullPartition 32).Pairwise (fun a b => a &&& b = 0) ∧
      listOr (fullPartition 32) = 2 ^ 32 - 1) ∧
    (validatePartition [3] 2 = false ∧
      ([3] : List Nat).Pairwise (fun a b => a &&& b = 0) ∧
      listOr [3] = 2 ^ 2 - 1) := by
  decide

/-- C3 (amended): the TypeScript validator computes the mask with 32-bit
shift semantics, so it is correct only for outcome slot counts up to 30: in
that range it accepts exactly the partitions of length at least 2 whose index
sets are pairwise disjoint and whose union covers all `n` bits. -/
theorem c3_validator_range (p : List Nat) (n : Nat) (_h2 : 2 ≤ n) (h30 : n ≤ 30) :
    validatePartition p n = true ↔
      (2 ≤ p.length ∧ p.Pairwise (fun a b => a &&& b = 0) ∧
        listOr p = 2 ^ n - 1) :=
  validatePartition_char p n h30

/-- C3 witness: the amended characterization applied to the binary partition
over 2 slots. -/
theorem c3_witness :
    (2 : Nat) ≤ 2 ∧ (2 : Nat) ≤ 30 ∧
      (validatePartition [1, 2] 2 = true ↔
        (2 ≤ ([1, 2] : List Nat).length ∧
          ([1, 2] : List Nat).Pairwise (fun a b => a &&& b = 0) ∧
          listOr [1, 2] = 2 ^ 2 - 1)) :=
  ⟨by omega, by omega, c3_validator_range [1, 2] 2 (by omega) (by omega)⟩

/-- C4: `validatePartition` accepts a partition iff the per-set checks pass,
the running union equals the full mask, and the length is at least 2; and on
the concrete vectors over 2 slots: `[0b01, 0b10]` valid, while `[0b11]`,
`[0b01, 0b01]`, `[0b11, 0b01]`, `[0b01]` and `[]` are invalid. -/
theorem c4_accept_condition :
    (∀ (p : List Nat) (n : Nat), 2 ≤ n → n ≤ 30 →
      (validatePartition p n = true ↔
        (checksFrom (2 ^ n - 1) 0 p = true ∧ unionFrom 0 p = 2 ^ n - 1 ∧
          2 ≤ p.length))) ∧
    validatePartition [1, 2] 2 = true ∧
    validatePartition [3] 2 = false ∧
    validatePartition [1, 1] 2 = false ∧
    validatePartition [3, 1] 2 = false ∧
    validatePartition [1] 2 = false ∧
    validatePartition [] 2 = false := by
  refine ⟨fun p n _ h30 => validatePartition_eq_checks p n h30, ?_, ?_, ?_, ?_, ?_, ?_⟩ <;>
    decide

/-- C4 witness: the accept condition applied to the binary partition over 2
slots. -/
theorem c4_witness :
    (2 : Nat) ≤ 2 ∧ (2 : Nat) ≤ 30 ∧
      (validatePartition [1, 2] 2 = true ↔
        (checksFrom (2 ^ 2 - 1) 0 [1, 2] = true ∧ unionFrom 0 [1, 2] = 2 ^ 2 - 1 ∧
          2 ≤ ([1, 2] : List Nat).length)) :=
  ⟨by omega, by omega, c4_accept_condition.1 [1, 2] 2 (by omega) (by omega)⟩

/-- C5: the payout pipeline of `redeem_positions` (double-width checked
multiply, checked divide, truncating cast) computes exactly
`floor(amount * Σ selected numerators / Σ all numerators)` for u64-bounded
inputs with a nonzero denominator; and the three concrete examples:
numerators `[0,1]`, amount 100, index set `0b10` pay 100; `[1,1]`, 100,
`0b10` pay 50; `[1,1]`, 1, `0b10` pay 0. -/
theorem c5_payout_exactness :
    (∀ (nums : List Nat) (s amount : Nat),
      amount < 2 ^ 64 → nums.sum < 2 ^ 64 → nums.sum ≠ 0 →
      payoutFor nums s amount =
        some (amount * calculate_payout_numerator nums s / nums.sum)) ∧
    payoutFor [0, 1] 2 100 = some 100 ∧
    payoutFor [1, 1] 2 100 = some 50 ∧
    payoutFor [1, 1] 2 1 = some 0 := by
  refine ⟨fun nums s amount => payoutFor_eq_floor nums s amount, ?_, ?_, ?_⟩ <;>
    decide

/-- C5 witness: the exactness formula applied at numerators `[0, 1]`, index
set `0b10`, amount 100. -/
theorem c5_witness :
    (100 : Nat) < 2 ^ 64 ∧ ([0, 1] : List Nat).sum < 2 ^ 64 ∧
      ([0, 1] : List Nat).sum ≠ 0 ∧
      payoutFor [0, 1] 2 100 =
        some (100 * calculate_payout_numerator [0, 1] 2 / ([0, 1] : List Nat).sum) :=
  ⟨by decide, by decide, by decide,
    c5_payout_exactness.1 [0, 1] 2 100 (by decide) (by decide) (by decide)⟩

/-- C6: evaluation of the embedded `report_payout` at an already-resolved
condition. The excerpt has no `is_resolved` check, so a second call by the
oracle succeeds — with the stored vector it returns the condition unchanged,
and with a different vector it silently overwrites the payout — instead of
failing with `AlreadyResolved` as the claim requires. -/
theorem c6_resolution_not_final :
    report_payout resolvedCond.oracle resolvedCond [0, 1] = .ok resolvedCond ∧
    report_payout resolvedCond.oracle resolvedCond [1, 0] =
      .ok ⟨7, 2, true, [1, 0]⟩ :=
  ⟨rfl, rfl⟩

/-- C7: evaluation of the embedded `report_payout` at an unresolved
condition with invalid payout vectors. The excerpt validates nothing beyond
the oracle identity: the all-zero vector `[0, 0]` and the wrong-length vector
`[1, 2, 3]` are both accepted and resolve the condition, instead of failing
with `InvalidPayoutVector` as the claim requires. -/
theorem c7_no_payout_vector_validation :
    report_payout unresolvedCond.oracle unresolvedCond [0, 0] =
      .ok ⟨7, 2, true, [0, 0]⟩ ∧
    report_payout unresolvedCond.oracle unresolvedCond [1, 2, 3] =
      .ok ⟨7, 2, true, [1, 2, 3]⟩ :=
  ⟨rfl, rfl⟩

/-- C8: split/merge inverse law — for a valid partition, a positive amount
covered by the payer's collateral, splitting and then merging the same
amount with the same partition restores the ledger exactly. -/
theorem c8_split_merge_inverse (L : Ledger) (n a : Nat) (P : List Nat)
    (hv : validate P n = true) (ha : 0 < a) (hc : a ≤ L.payerCollateral) :
    (split L n a P).bind (fun L2 => merge L2 n a P) = .ok L := by
  obtain ⟨pc, v, sup, claims⟩ := L
  replace hc : a ≤ pc := hc
  rw [split, if_neg (by omega : ¬ a = 0), if_pos hv,
    if_neg (by omega : ¬ pc < a)]
  show merge _ n a P = _
  rw [merge, if_pos hv]
  dsimp only
  have h2 : ¬ ((P.any fun s => claims s + a * P.count s < a) = true) := by
    intro hcon
    obtain ⟨s, hs, hlt⟩ := List.any_eq_true.mp hcon
    rw [decide_eq_true_eq] at hlt
    have hcount : 0 < P.count s := List.count_pos_iff.mpr hs
    have hle : a * 1 ≤ a * P.count s := Nat.mul_le_mul_left a hcount
    omega
  have h3 : ¬ (((List.range n).any fun i =>
      sup i + a * countCover P i < a * countCover P i) = true) := by
    intro hcon
    obtain ⟨i, _, hlt⟩ := List.any_eq_true.mp hcon
    rw [decide_eq_true_eq] at hlt
    omega
  rw [if_neg h2, if_neg h3, if_neg (by omega : ¬ v + a < a)]
  simp only [Except.ok.injEq, Ledger.mk.injEq]
  refine ⟨by omega, by omega, ?_, ?_⟩
  · funext i
    omega
  · funext s
    omega

/-- C8 witness: the inverse law applied to a concrete split of 5 units with
the binary partition over 2 slots from `ledger0`. -/
theorem c8_witness :
    validate [1, 2] 2 = true ∧ (0 : Nat) < 5 ∧ 5 ≤ ledger0.payerCollateral ∧
      (split ledger0 2 5 [1, 2]).bind (fun L2 => merge L2 2 5 [1, 2]) =
        .ok ledger0 :=
  ⟨by decide, by decide, by decide,
    c8_split_merge_inverse ledger0 2 5 [1, 2] (by decide) (by decide) (by decide)⟩

/-- C1 counterexample: the claim `Vault.balance = Σ_i supply(i)` fails on the
state reached by a single full-partition split of 100 units over 2 outcome
slots: the vault holds 100 while the supplies sum to 200. -/
theorem c1_counterexample :
    Reachable 2 c1SplitState ∧ c1SplitState.vault ≠ sumSupply c1SplitState 2 := by
  constructor
  · exact Reachable.splitStep 100 (Reachable.init 100) rfl
  · decide

/-- C1 (amended): in every reachable state of a condition that was only ever
split and merged with full single-bit partitions, the sum of the outcome
supplies equals the vault balance times the outcome slot count (each
outcome's supply equals the vault balance), which is exactly the check
`verifyCTFInvariant` performs
(`totalOutcomeSupply === vaultBalance * outcomeMints.length`). -/
theorem c1_conservation (n : Nat) (L : Ledger) (h : Reachable n L) :
    sumSupply L n = L.vault * n ∧
    verifyCTFInvariantCheck L.vault (sumSupply L n) n = true := by
  have hsum : sumSupply L n = L.vault * n := by
    rw [sumSupply]
    exact sum_map_range_const L.supply L.vault n
      (fun i hi => reachable_supply_eq_vault h i hi)
  refine ⟨hsum, ?_⟩
  rw [verifyCTFInvariantCheck, hsum]
  exact beq_self_eq_true _

/-- C1 witness: the amended conservation invariant evaluated on the state
reached by splitting 100 units over 2 slots. -/
theorem c1_witness :
    sumSupply c1SplitState 2 = c1SplitState.vault * 2 ∧
      verifyCTFInvariantCheck c1SplitState.vault (sumSupply c1SplitState 2) 2 = true :=
  c1_conservation 2 c1SplitState (Reachable.splitStep 100 (Reachable.init 100) rfl)

/-- C9: in every run of `redeem_positions` the emitted event trace is a block
of burns optionally followed by one final transfer, and a failing run emits
no transfer at all and leaves the caller's collateral and the vault
untouched — a failure partway through a multi-index-set redemption cannot
pay out for claims still held. -/
theorem c9_burns_precede_transfer (condition : Condition) (st : RedeemState)
    (index_sets : List Nat) (amount : Nat) :
    (∃ bs, (∀ e ∈ bs, isBurn e = true) ∧
      ((redeem_positions condition st index_sets amount).2.2 = bs ∨
        ∃ t, (redeem_positions condition st index_sets amount).2.2 =
          bs ++ [LedgerEvent.transfer t])) ∧
    (∀ e st1 tr,
      redeem_positions condition st index_sets amount = (some e, st1, tr) →
      ((∀ ev ∈ tr, isBurn ev = true) ∧
        st1.userCollateral = st.userCollateral ∧ st1.vault = st.vault)) := by
  rw [redeem_positions]
  by_cases hres : condition.is_resolved = false
  · rw [if_pos hres]
    constructor
    · exact ⟨[], by simp, Or.inl rfl⟩
    · intro e st1 tr h
      injection h with ha hb
      injection hb with hb1 hb2
      subst hb1
      subst hb2
      exact ⟨by simp, rfl, rfl⟩
  · rw [if_neg hres]
    obtain ⟨bs, hbs, hall⟩ :=
      redeemLoop_trace condition.payout_numerators amount index_sets st 0 []
    have hpres :=
      redeemLoop_preserves condition.payout_numerators amount index_sets st 0 []
    rcases hloop : redeemLoop condition.payout_numerators amount index_sets st 0 []
      with ⟨err, st1, total, trace⟩
    rw [hloop] at hbs hpres
    have htr : trace = bs := by simpa using hbs
    have hv1 : st1.vault = st.vault := by simpa using hpres.1
    have hc1 : st1.userCollateral = st.userCollateral := by simpa using hpres.2
    cases err with
    | some e =>
      rw [redeemFinish]
      constructor
      · exact ⟨bs, hall, Or.inl htr⟩
      · intro e2 st2 tr2 h
        injection h with ha hb
        injection hb with hb1 hb2
        subst hb1
        subst hb2
        refine ⟨?_, hc1, hv1⟩
        intro ev hev
        exact hall ev (htr ▸ hev)
    | none =>
      rw [redeemFinish]
      by_cases hvt : st1.vault < total
      · rw [if_pos hvt]
        constructor
        · exact ⟨bs, hall, Or.inl htr⟩
        · intro e2 st2 tr2 h
          injection h with ha hb
          injection hb with hb1 hb2
          subst hb1
          subst hb2
          refine ⟨?_, hc1, hv1⟩
          intro ev hev
          exact hall ev (htr ▸ hev)
      · rw [if_neg hvt]
        constructor
        · exact ⟨bs, hall, Or.inr ⟨total, by rw [← htr]⟩⟩
        · intro e2 st2 tr2 h
          injection h with ha hb
          exact Option.noConfusion ha

/-- C10: over the JavaScript-safe bitmask domain, `indexSetToOutcomes` lists
exactly the set bit positions of its argument in strictly increasing order
and `outcomesToIndexSet` inverts it; conversely, applying the two in the
other order returns the input list of distinct outcome indices sorted
ascending (stated as: a sorted permutation of the input). -/
theorem c10_index_set_roundtrip :
    (∀ s : Nat, s < 2 ^ 31 →
      (outcomesToIndexSet (indexSetToOutcomes s) = s ∧
        (∀ i, i ∈ indexSetToOutcomes s ↔ s.testBit i = true) ∧
        List.Sorted (· < ·) (indexSetToOutcomes s))) ∧
    (∀ L : List Nat, L.Nodup → (∀ x ∈ L, x < 31) →
      ((indexSetToOutcomes (outcomesToIndexSet L)).Perm L ∧
        List.Sorted (· < ·) (indexSetToOutcomes (outcomesToIndexSet L)))) := by
  constructor
  · intro s _
    exact ⟨outcomesToIndexSet_indexSetToOutcomes s,
      fun i => mem_indexSetToOutcomes s i,
      sorted_indexSetToOutcomesGo s 0⟩
  · intro L hnd _
    have hsorted : List.Sorted (· < ·) (indexSetToOutcomes (outcomesToIndexSet L)) :=
      sorted_indexSetToOutcomesGo _ 0
    refine ⟨?_, hsorted⟩
    rw [List.perm_ext_iff_of_nodup hsorted.nodup hnd]
    intro i
    rw [mem_indexSetToOutcomes, testBit_outcomesToIndexSet]

/-- C10 witness: the round trip evaluated at the index set `0b101` and on
the list `[2, 0]`. -/
theorem c10_witness :
    (5 : Nat) < 2 ^ 31 ∧
      outcomesToIndexSet (indexSetToOutcomes 5) = 5 ∧
      List.Sorted (· < ·) (indexSetToOutcomes 5) ∧
      ([2, 0] : List Nat).Nodup ∧
      (indexSetToOutcomes (outcomesToIndexSet [2, 0])).Perm [2, 0] :=
  ⟨by decide, (c10_index_set_roundtrip.1 5 (by decide)).1,
    (c10_index_set_roundtrip.1 5 (by decide)).2.2, by decide,
    (c10_index_set_roundtrip.2 [2, 0] (by decide) (by decide)).1⟩

/-- C9 witness: a concrete failing redemption — the caller holds no claims,
so the run fails with `InsufficientPosition`, emits no event, and leaves the
state untouched. -/
theorem c9_witness :
    redeem_positions resolvedCond emptyRedeemState [2] 5 =
      (some CtfError.InsufficientPosition, emptyRedeemState, []) ∧
    emptyRedeemState.userCollateral = emptyRedeemState.userCollateral ∧
    emptyRedeemState.vault = emptyRedeemState.vault :=
  ⟨rfl, ((c9_burns_precede_transfer resolvedCond emptyRedeemState [2] 5).2
    CtfError.InsufficientPosition emptyRedeemState [] rfl).2⟩

end CTF
